import Mathlib

/-!
Shallow embedding of the xv6 buffer cache (kernel/bio.c, sharded-bucket
variant with timestamp-based LRU).

The C global `struct { struct spinlock lock; struct buf buf[NBUF]; } bcache[NBUCKETS]`
is modelled as a state carrying the two configuration constants and a
function from (bucket index, slot index) to buffer slots.  Machine
unsigned ints (`refcnt`, `tstamp`, `ticks`) are Nats with arithmetic
taken modulo 2^32 where the C code can wrap.  Each operation returns an
`Outcome`: an optional result (`none` models a `panic`, which never
returns), the post state, and the ordered trace of externally visible
events (lock acquisitions/releases, disk transfers, panics).
-/

/-- The modulus 2^32 of the C `uint` fields. -/
def UINT : Nat := 2 ^ 32

/-- One cache slot, mirroring `struct buf` (fields used by bio.c):
`dev`, `blockno`, `valid`, `refcnt`, `tstamp`, its sleep-lock state,
whether its sleep-lock has been initialized, and the payload (abstracted
to one Nat). -/
structure Buf where
  dev : Nat
  blockno : Nat
  valid : Bool
  refcnt : Nat
  tstamp : Nat
  lockHeld : Bool
  lockInit : Bool
  data : Nat
deriving Repr, DecidableEq

/-- The C global `bcache` array before any initialization: every field
zero, as C static storage is zero-initialized. -/
def zeroBuf : Buf :=
  { dev := 0, blockno := 0, valid := false, refcnt := 0, tstamp := 0,
    lockHeld := false, lockInit := false, data := 0 }

/-- Externally visible events emitted by the cache operations. -/
inductive Ev where
  | acqShard (i : Nat)
  | relShard (i : Nat)
  | acqSleep (i j : Nat)
  | relSleep (i j : Nat)
  | diskRW (write : Bool) (dev blockno : Nat)
  | panicked (msg : String)
deriving Repr, DecidableEq

/-- Whole-cache state: the configuration constants NBUCKETS and NBUF,
the slot array (bucket index, slot index ↦ slot), the per-bucket
spinlock initialization flags, and the global `ticks` clock. -/
structure BCache where
  nbuckets : Nat
  nbuf : Nat
  bufAt : Nat → Nat → Buf
  shardInitAt : Nat → Bool
  ticks : Nat

/-- Operation outcome: `res = none` models a `panic` (the C call never
returns), `st` the state at the end (or at the panic point), `tr` the
ordered event trace. -/
structure Outcome (α : Type) where
  res : Option α
  st : BCache
  tr : List Ev

/-- The zero-initialized C global, before `binit` runs. -/
def cZero (nbuckets nbuf : Nat) : BCache :=
  { nbuckets := nbuckets, nbuf := nbuf,
    bufAt := fun _ _ => zeroBuf,
    shardInitAt := fun _ => false,
    ticks := 0 }

/-- Initialization `binit`: for every bucket `i < NBUCKETS`, `initlock` the shard lock
and `initsleeplock` every slot's sleep lock. -/
def binit (s : BCache) : BCache :=
  { s with
    shardInitAt := fun i => if i < s.nbuckets then true else s.shardInitAt i,
    bufAt := fun i j =>
      if i < s.nbuckets ∧ j < s.nbuf then
        { s.bufAt i j with lockInit := true }
      else s.bufAt i j }

/-- The hit test of the `bget` scan: `b->dev == dev && b->blockno == blockno`. -/
def isHit (dev blockno : Nat) (b : Buf) : Bool :=
  b.dev == dev && b.blockno == blockno

/-- The LRU-replacement test of the `bget` scan:
`lru == 0 || lru->tstamp > b->tstamp`. -/
def lruBetter (lru : Option (Nat × Buf)) (p : Nat × Buf) : Bool :=
  match lru with
  | none => true
  | some q => decide (p.2.tstamp < q.2.tstamp)

/-- The `bget` scan loop over the bucket's slots (with their indices),
carrying the current LRU candidate.  Returns `inl` the first hit, or
`inr` the final LRU candidate (`none` when no slot had `refcnt == 0`).
Mirrors:
`if(b->dev == dev && b->blockno == blockno) ... return b;`
`else if(b->refcnt == 0 && (lru==0 || lru->tstamp > b->tstamp)) lru = b;`. -/
def bscan (dev blockno : Nat) :
    List (Nat × Buf) → Option (Nat × Buf) → Sum (Nat × Buf) (Option (Nat × Buf))
  | [], lru => Sum.inr lru
  | p :: rest, lru =>
    if isHit dev blockno p.2 then Sum.inl p
    else if p.2.refcnt == 0 && lruBetter lru p then bscan dev blockno rest (some p)
    else bscan dev blockno rest lru

/-- The slots of bucket `i`, in scan order, paired with their indices. -/
def scanList (s : BCache) (i : Nat) : List (Nat × Buf) :=
  (List.range s.nbuf).map fun j => (j, s.bufAt i j)

/-- Replace the slot at (bucket `i`, index `j`). -/
def setBuf (s : BCache) (i j : Nat) (b : Buf) : BCache :=
  { s with bufAt := fun i' j' => if i' = i ∧ j' = j then b else s.bufAt i' j' }

/-- Lookup `bget(dev, blockno)`: hash to bucket `blockno % NBUCKETS`, take the
shard lock, scan; on a hit increment `refcnt`, release the shard lock,
acquire the slot's sleep lock and return it; on a miss with an LRU
candidate reassign it (`dev`, `blockno`, `valid = 0`, `refcnt = 1`,
`tstamp = ticks`), release the shard lock, acquire its sleep lock and
return it; otherwise release the shard lock and panic. -/
def bget (dev blockno : Nat) (s : BCache) : Outcome (Nat × Nat) :=
  let id := blockno % s.nbuckets
  match bscan dev blockno (scanList s id) none with
  | Sum.inl p =>
      let b1 := { p.2 with refcnt := (p.2.refcnt + 1) % UINT }
      let b2 := { b1 with lockHeld := true }
      { res := some (id, p.1), st := setBuf s id p.1 b2,
        tr := [Ev.acqShard id, Ev.relShard id, Ev.acqSleep id p.1] }
  | Sum.inr (some p) =>
      let b1 := { p.2 with dev := dev, blockno := blockno, valid := false,
                           refcnt := 1, tstamp := s.ticks }
      let b2 := { b1 with lockHeld := true }
      { res := some (id, p.1), st := setBuf s id p.1 b2,
        tr := [Ev.acqShard id, Ev.relShard id, Ev.acqSleep id p.1] }
  | Sum.inr none =>
      { res := none, st := s,
        tr := [Ev.acqShard id, Ev.relShard id, Ev.panicked "bget: no buffers"] }

/-- Read `bread(dev, blockno)`: `bget`, then if the slot is not valid, have
the disk driver fill the payload (`virtio_disk_rw(b, 0)`) and set
`valid = 1`.  `disk` gives the on-disk content of each block. -/
def bread (dev blockno : Nat) (disk : Nat → Nat → Nat) (s : BCache) :
    Outcome (Nat × Nat) :=
  let o := bget dev blockno s
  match o.res with
  | none => o
  | some (i, j) =>
      let b := o.st.bufAt i j
      if b.valid then o
      else
        { res := o.res,
          st := setBuf o.st i j { b with valid := true, data := disk dev blockno },
          tr := o.tr ++ [Ev.diskRW false dev blockno] }

/-- Write `bwrite(b)`: panic unless the caller holds the slot's sleep lock,
else write the payload to disk (`virtio_disk_rw(b, 1)`). -/
def bwrite (s : BCache) (i j : Nat) : Outcome Unit :=
  let b := s.bufAt i j
  if b.lockHeld then
    { res := some (), st := s, tr := [Ev.diskRW true b.dev b.blockno] }
  else
    { res := none, st := s, tr := [Ev.panicked "bwrite"] }

/-- Release `brelse(b)`: panic unless the caller holds the slot's sleep lock;
release it, then under the shard lock of bucket `b->blockno % NBUCKETS`
decrement `refcnt` (unsigned, wrapping) and stamp `tstamp = ticks`. -/
def brelse (s : BCache) (i j : Nat) : Outcome Unit :=
  let b := s.bufAt i j
  if b.lockHeld then
    let id := b.blockno % s.nbuckets
    let b1 := { b with lockHeld := false,
                       refcnt := (b.refcnt + (UINT - 1)) % UINT,
                       tstamp := s.ticks }
    { res := some (), st := setBuf s i j b1,
      tr := [Ev.relSleep i j, Ev.acqShard id, Ev.relShard id] }
  else
    { res := none, st := s, tr := [Ev.panicked "brelse"] }

/-- Pin `bpin(b)`: under the shard lock of bucket `b->blockno % NBUCKETS`,
increment `refcnt` (unsigned, wrapping). -/
def bpin (s : BCache) (i j : Nat) : Outcome Unit :=
  let b := s.bufAt i j
  let id := b.blockno % s.nbuckets
  { res := some (), st := setBuf s i j { b with refcnt := (b.refcnt + 1) % UINT },
    tr := [Ev.acqShard id, Ev.relShard id] }

/-- Unpin `bunpin(b)`: under the shard lock of bucket `b->blockno % NBUCKETS`,
decrement `refcnt` (unsigned, wrapping, no underflow check). -/
def bunpin (s : BCache) (i j : Nat) : Outcome Unit :=
  let b := s.bufAt i j
  let id := b.blockno % s.nbuckets
  { res := some (),
    st := setBuf s i j { b with refcnt := (b.refcnt + (UINT - 1)) % UINT },
    tr := [Ev.acqShard id, Ev.relShard id] }

/-- One step of the cache's sequential transition system: a clock tick,
or any cache operation that returns (panics have no successor state). -/
inductive Step : BCache → BCache → Prop where
  | tick (s : BCache) : Step s { s with ticks := (s.ticks + 1) % UINT }
  | get (dev blockno : Nat) (s : BCache) :
      (bget dev blockno s).res.isSome → Step s (bget dev blockno s).st
  | read (dev blockno : Nat) (disk : Nat → Nat → Nat) (s : BCache) :
      (bread dev blockno disk s).res.isSome → Step s (bread dev blockno disk s).st
  | relse (i j : Nat) (s : BCache) :
      (brelse s i j).res.isSome → Step s (brelse s i j).st
  | pin (i j : Nat) (s : BCache) : Step s (bpin s i j).st
  | unpin (i j : Nat) (s : BCache) : Step s (bunpin s i j).st

/-- States reachable from the freshly initialized cache with the given
configuration constants. -/
def Reachable (nbuckets nbuf : Nat) (s : BCache) : Prop :=
  Relation.ReflTransGen Step (binit (cZero nbuckets nbuf)) s

/-! ### Lemmas about the scan loop -/

/-- A hit result of the scan is a slot of the scanned list satisfying
the hit test. -/
theorem bscan_inl_spec (dev blockno : Nat) (l : List (Nat × Buf))
    (acc : Option (Nat × Buf)) (p : Nat × Buf)
    (h : bscan dev blockno l acc = Sum.inl p) :
    p ∈ l ∧ isHit dev blockno p.2 = true := by
  induction l generalizing acc with
  | nil => simp [bscan] at h
  | cons q rest ih =>
    simp only [bscan] at h
    split at h
    · cases h
      exact ⟨List.mem_cons_self _ _, by assumption⟩
    · split at h
      · have := ih _ h
        exact ⟨List.mem_cons_of_mem _ this.1, this.2⟩
      · have := ih _ h
        exact ⟨List.mem_cons_of_mem _ this.1, this.2⟩

/-- If no slot of the scanned list satisfies the hit test, the scan does
not return a hit. -/
theorem bscan_inr_of_nohit (dev blockno : Nat) (l : List (Nat × Buf))
    (acc : Option (Nat × Buf))
    (hm : ∀ p ∈ l, isHit dev blockno p.2 = false) :
    ∃ o, bscan dev blockno l acc = Sum.inr o := by
  induction l generalizing acc with
  | nil => exact ⟨acc, rfl⟩
  | cons q rest ih =>
    simp only [bscan]
    split
    · rename_i hq
      exact absurd hq (by simp [hm q (List.mem_cons_self _ _)])
    · split
      · exact ih _ fun p hp => hm p (List.mem_cons_of_mem _ hp)
      · exact ih _ fun p hp => hm p (List.mem_cons_of_mem _ hp)

/-- Once the scan's LRU candidate is set, it never becomes unset. -/
theorem bscan_acc_some (dev blockno : Nat) (l : List (Nat × Buf))
    (q : Nat × Buf) (o : Option (Nat × Buf))
    (h : bscan dev blockno l (some q) = Sum.inr o) : ∃ r, o = some r := by
  induction l generalizing q with
  | nil => exact ⟨q, by cases h; rfl⟩
  | cons p rest ih =>
    simp only [bscan] at h
    split at h
    · cases h
    · split at h
      · exact ih _ h
      · exact ih _ h

/-- If the scan ends with no LRU candidate, it started with none and
every scanned slot has a nonzero reference count. -/
theorem bscan_inr_none_spec (dev blockno : Nat) (l : List (Nat × Buf))
    (acc : Option (Nat × Buf))
    (h : bscan dev blockno l acc = Sum.inr none) :
    acc = none ∧ ∀ p ∈ l, p.2.refcnt ≠ 0 := by
  induction l generalizing acc with
  | nil => exact ⟨by cases h; rfl, by simp⟩
  | cons q rest ih =>
    simp only [bscan] at h
    split at h
    · cases h
    · split at h
      · obtain ⟨r, hr⟩ := bscan_acc_some dev blockno rest _ _ h
        cases hr
      · rename_i hcond
        obtain ⟨ha, hall⟩ := ih _ h
        subst ha
        refine ⟨rfl, ?_⟩
        intro p hp
        rcases List.mem_cons.mp hp with hq | hq
        · subst hq
          simp [lruBetter, Bool.and_eq_true] at hcond
          exact hcond
        · exact hall p hq

/-- If every scanned slot misses and has a nonzero reference count, the
scan returns no candidate at all. -/
theorem bscan_none_of_pinned (dev blockno : Nat) (l : List (Nat × Buf))
    (hm : ∀ p ∈ l, isHit dev blockno p.2 = false)
    (hr : ∀ p ∈ l, p.2.refcnt ≠ 0) :
    bscan dev blockno l none = Sum.inr none := by
  induction l with
  | nil => rfl
  | cons q rest ih =>
    simp only [bscan]
    rw [if_neg, if_neg]
    · exact ih (fun p hp => hm p (List.mem_cons_of_mem _ hp))
        (fun p hp => hr p (List.mem_cons_of_mem _ hp))
    · simp [Bool.and_eq_true]
      intro h
      exact absurd h (hr q (List.mem_cons_self _ _))
    · simp [hm q (List.mem_cons_self _ _)]

/-- A scan that returns an LRU verdict saw no hit anywhere. -/
theorem bscan_inr_nohit (dev blockno : Nat) (l : List (Nat × Buf))
    (acc : Option (Nat × Buf)) (o : Option (Nat × Buf))
    (h : bscan dev blockno l acc = Sum.inr o) :
    ∀ p ∈ l, isHit dev blockno p.2 = false := by
  induction l generalizing acc with
  | nil => simp
  | cons q rest ih =>
    simp only [bscan] at h
    split at h
    · cases h
    · rename_i hq
      intro p hp
      rcases List.mem_cons.mp hp with hpq | hpq
      · subst hpq
        simpa using hq
      · split at h
        · exact ih _ h p hpq
        · exact ih _ h p hpq

/-- Full characterization of the scan's LRU verdict, generalized over
the running candidate `acc`.  For a scan ending in candidate `(j, bj)`:
the candidate comes from the list (with `refcnt = 0`) or is `acc`; its
timestamp is minimal among the eligible slots of the list and `acc`; and
the minimum is attained first (any eligible slot with a smaller index
has a strictly larger timestamp), provided the list indices strictly
increase and `acc`'s index precedes them all. -/
theorem bscan_lru_spec (dev blockno : Nat) (l : List (Nat × Buf)) :
    ∀ (acc : Option (Nat × Buf)) (j : Nat) (bj : Buf),
    l.Pairwise (fun p q => p.1 < q.1) →
    (∀ q, acc = some q → ∀ p ∈ l, q.1 < p.1) →
    bscan dev blockno l acc = Sum.inr (some (j, bj)) →
    ( (((j, bj) ∈ l ∧ bj.refcnt = 0) ∨ acc = some (j, bj))
    ∧ (∀ p ∈ l, p.2.refcnt = 0 → bj.tstamp ≤ p.2.tstamp)
    ∧ (∀ q, acc = some q → bj.tstamp ≤ q.2.tstamp)
    ∧ (∀ p ∈ l, p.2.refcnt = 0 → p.1 < j → bj.tstamp < p.2.tstamp)
    ∧ (∀ q, acc = some q → ((j, bj) = q ∨ bj.tstamp < q.2.tstamp)) ) := by
  induction l with
  | nil =>
    intro acc j bj _ _ h
    cases h
    refine ⟨Or.inr rfl, by simp, ?_, by simp, ?_⟩
    · intro q hq
      cases hq
      exact le_refl _
    · intro q hq
      cases hq
      exact Or.inl rfl
  | cons q rest ih =>
    intro acc j bj hsort hacclt h
    have hsort' : rest.Pairwise (fun p q => p.1 < q.1) :=
      (List.pairwise_cons.mp hsort).2
    have hqlt : ∀ p ∈ rest, q.1 < p.1 := (List.pairwise_cons.mp hsort).1
    simp only [bscan] at h
    split at h
    · cases h
    · split at h
      · -- take: the head becomes the new candidate
        rename_i hcond
        simp only [Bool.and_eq_true, beq_iff_eq] at hcond
        obtain ⟨hq0, hbetter⟩ := hcond
        obtain ⟨A, B, C, D, E⟩ := ih (some q) j bj hsort'
          (by intro r hr p hp; cases hr; exact hqlt p hp) h
        have hCq : bj.tstamp ≤ q.2.tstamp := C q rfl
        refine ⟨?_, ?_, ?_, ?_, ?_⟩
        · rcases A with ⟨hmem, hr0⟩ | hacc
          · exact Or.inl ⟨List.mem_cons_of_mem _ hmem, hr0⟩
          · cases hacc
            exact Or.inl ⟨List.mem_cons_self _ _, hq0⟩
        · intro p hp hr0
          rcases List.mem_cons.mp hp with hpq | hpq
          · subst hpq
            exact hCq
          · exact B p hpq hr0
        · intro r hr
          have hlt : q.2.tstamp < r.2.tstamp := by
            simpa [lruBetter, hr] using hbetter
          exact le_of_lt (lt_of_le_of_lt hCq hlt)
        · intro p hp hr0 hlt
          rcases List.mem_cons.mp hp with hpq | hpq
          · subst hpq
            rcases E p rfl with hEq | hEs
            · cases hEq
              exact absurd hlt (lt_irrefl _)
            · exact hEs
          · exact D p hpq hr0 hlt
        · intro r hr
          have hltr : q.2.tstamp < r.2.tstamp := by
            simpa [lruBetter, hr] using hbetter
          exact Or.inr (lt_of_le_of_lt hCq hltr)
      · -- skip: the head does not replace the candidate
        rename_i hcond
        simp only [Bool.and_eq_true, beq_iff_eq, not_and] at hcond
        obtain ⟨A, B, C, D, E⟩ := ih acc j bj hsort'
          (by intro r hr p hp; exact hacclt r hr p (List.mem_cons_of_mem _ hp)) h
        have hskip : q.2.refcnt = 0 → ∃ r0, acc = some r0 ∧ r0.2.tstamp ≤ q.2.tstamp := by
          intro hq0
          have hnb : ¬ lruBetter acc q = true := hcond hq0
          cases hacc : acc with
          | none => exact absurd (by simp [lruBetter, hacc]) hnb
          | some r0 =>
            refine ⟨r0, rfl, ?_⟩
            by_contra hle
            exact hnb (by simp [lruBetter, hacc, lt_of_not_le hle])
        refine ⟨?_, ?_, ?_, ?_, ?_⟩
        · rcases A with ⟨hmem, hr0⟩ | hacc
          · exact Or.inl ⟨List.mem_cons_of_mem _ hmem, hr0⟩
          · exact Or.inr hacc
        · intro p hp hr0
          rcases List.mem_cons.mp hp with hpq | hpq
          · subst hpq
            obtain ⟨r0, hacc, hle⟩ := hskip hr0
            exact le_trans (C r0 hacc) hle
          · exact B p hpq hr0
        · exact C
        · intro p hp hr0 hlt
          rcases List.mem_cons.mp hp with hpq | hpq
          · subst hpq
            obtain ⟨r0, hacc, hle⟩ := hskip hr0
            rcases E r0 hacc with hEq | hEs
            · have hjr : j = r0.1 := congrArg Prod.fst hEq
              have hlt2 : r0.1 < p.1 := hacclt r0 hacc p (List.mem_cons_self _ _)
              omega
            · exact lt_of_lt_of_le hEs hle
          · exact D p hpq hr0 hlt
        · exact E

/-! ### Lemmas about the scanned bucket list -/

/-- Elements of `scanList` are exactly the bucket's slots at their
indices. -/
theorem scanList_mem_spec (s : BCache) (i : Nat) (p : Nat × Buf)
    (hp : p ∈ scanList s i) : p.1 < s.nbuf ∧ p.2 = s.bufAt i p.1 := by
  simp only [scanList, List.mem_map, List.mem_range] at hp
  obtain ⟨a, ha, hpa⟩ := hp
  cases hpa
  exact ⟨ha, rfl⟩

/-- Every in-range slot occurs in `scanList`. -/
theorem scanList_get (s : BCache) (i j : Nat) (hj : j < s.nbuf) :
    (j, s.bufAt i j) ∈ scanList s i := by
  simp only [scanList, List.mem_map, List.mem_range]
  exact ⟨j, hj, rfl⟩

/-- The indices of `scanList` strictly increase in scan order. -/
theorem scanList_pairwise (s : BCache) (i : Nat) :
    (scanList s i).Pairwise fun p q => p.1 < q.1 :=
  (List.pairwise_lt_range s.nbuf).map _ (fun _ _ h => h)

/-- Unsigned 32-bit decrement is ordinary decrement away from 0. -/
theorem uint_dec_sub (r : Nat) (h1 : 0 < r) (h2 : r < UINT) :
    (r + (UINT - 1)) % UINT = r - 1 := by
  simp only [UINT] at *
  omega

/-! ### Claim theorems -/

/-- C8: after `binit` completes (run on the zero-initialized global) and
before any other operation, every slot of every bucket is unlocked,
invalid and has zero reference count, and every shard lock and every
slot lock has been initialized. -/
theorem binit_state_spec (nbuckets nbuf i j : Nat)
    (hi : i < nbuckets) (hj : j < nbuf) :
    (binit (cZero nbuckets nbuf)).shardInitAt i = true ∧
    ((binit (cZero nbuckets nbuf)).bufAt i j).lockInit = true ∧
    ((binit (cZero nbuckets nbuf)).bufAt i j).lockHeld = false ∧
    ((binit (cZero nbuckets nbuf)).bufAt i j).valid = false ∧
    ((binit (cZero nbuckets nbuf)).bufAt i j).refcnt = 0 := by
  simp [binit, cZero, hi, hj, zeroBuf]

/-- Witness for C8 at a concrete configuration. -/
theorem binit_state_spec_witness :
    (binit (cZero 2 2)).shardInitAt 0 = true ∧
    ((binit (cZero 2 2)).bufAt 0 1).lockInit = true ∧
    ((binit (cZero 2 2)).bufAt 0 1).lockHeld = false ∧
    ((binit (cZero 2 2)).bufAt 0 1).valid = false ∧
    ((binit (cZero 2 2)).bufAt 0 1).refcnt = 0 :=
  binit_state_spec 2 2 0 1 (by decide) (by decide)

/-- C6: invoking `bwrite` or `brelse` on a slot whose exclusive lock is
not held aborts fatally; `bwrite` aborts before invoking the driver, so
no disk transfer happens and the state is unchanged. -/
theorem unlocked_write_release_panic (s : BCache) (i j : Nat)
    (h : (s.bufAt i j).lockHeld = false) :
    (bwrite s i j).res = none ∧
    (bwrite s i j).tr = [Ev.panicked "bwrite"] ∧
    (bwrite s i j).st = s ∧
    (∀ w d b, Ev.diskRW w d b ∉ (bwrite s i j).tr) ∧
    (brelse s i j).res = none ∧
    (brelse s i j).tr = [Ev.panicked "brelse"] ∧
    (brelse s i j).st = s := by
  simp [bwrite, brelse, h]

/-- Witness for C6 on the freshly initialized cache (slot unlocked). -/
theorem unlocked_write_release_panic_witness :
    (bwrite (binit (cZero 2 2)) 0 0).res = none ∧
    (bwrite (binit (cZero 2 2)) 0 0).tr = [Ev.panicked "bwrite"] ∧
    (bwrite (binit (cZero 2 2)) 0 0).st = binit (cZero 2 2) ∧
    (Ev.diskRW true 0 0 ∉ (bwrite (binit (cZero 2 2)) 0 0).tr) ∧
    (brelse (binit (cZero 2 2)) 0 0).res = none ∧
    (brelse (binit (cZero 2 2)) 0 0).tr = [Ev.panicked "brelse"] := by
  have h := unlocked_write_release_panic (binit (cZero 2 2)) 0 0 (by decide)
  exact ⟨h.1, h.2.1, h.2.2.1, h.2.2.2.1 true 0 0, h.2.2.2.2.1, h.2.2.2.2.2.1⟩

/-- C7: `brelse` on a slot whose exclusive lock is held releases the
exclusive lock first, then under the owning shard lock decrements
`refcnt` by one (unsigned) and stamps `tstamp` with the current ticks,
leaving the slot's identity, validity and payload, all other slots, the
clock and the configuration unchanged. -/
theorem brelse_locked_spec (s : BCache) (i j : Nat)
    (h : (s.bufAt i j).lockHeld = true) :
    (brelse s i j).res = some () ∧
    (brelse s i j).tr = [Ev.relSleep i j,
      Ev.acqShard ((s.bufAt i j).blockno % s.nbuckets),
      Ev.relShard ((s.bufAt i j).blockno % s.nbuckets)] ∧
    ((brelse s i j).st.bufAt i j).refcnt
      = ((s.bufAt i j).refcnt + (UINT - 1)) % UINT ∧
    (0 < (s.bufAt i j).refcnt → (s.bufAt i j).refcnt < UINT →
      ((brelse s i j).st.bufAt i j).refcnt = (s.bufAt i j).refcnt - 1) ∧
    ((brelse s i j).st.bufAt i j).tstamp = s.ticks ∧
    ((brelse s i j).st.bufAt i j).lockHeld = false ∧
    ((brelse s i j).st.bufAt i j).dev = (s.bufAt i j).dev ∧
    ((brelse s i j).st.bufAt i j).blockno = (s.bufAt i j).blockno ∧
    ((brelse s i j).st.bufAt i j).valid = (s.bufAt i j).valid ∧
    ((brelse s i j).st.bufAt i j).data = (s.bufAt i j).data ∧
    (∀ i' j', ¬(i' = i ∧ j' = j) → (brelse s i j).st.bufAt i' j' = s.bufAt i' j') ∧
    (brelse s i j).st.ticks = s.ticks ∧
    (brelse s i j).st.nbuckets = s.nbuckets ∧
    (brelse s i j).st.nbuf = s.nbuf := by
  refine ⟨?_, ?_, ?_, ?_, ?_, ?_, ?_, ?_, ?_, ?_, ?_, ?_, ?_, ?_⟩
  all_goals simp [brelse, setBuf, h]
  · intro h1 h2
    exact uint_dec_sub _ h1 h2
  · intro i' j' h1 h2 h3
    exact absurd h3 (h1 h2)

/-- A concrete state with slot (0,0) locked and referenced once. -/
def wLocked : BCache :=
  setBuf (binit (cZero 2 2)) 0 0
    { zeroBuf with lockInit := true, lockHeld := true, refcnt := 1 }

/-- Witness for C7 on a concrete locked slot. -/
theorem brelse_locked_spec_witness :
    (brelse wLocked 0 0).res = some () ∧
    (brelse wLocked 0 0).tr = [Ev.relSleep 0 0, Ev.acqShard 0, Ev.relShard 0] ∧
    ((brelse wLocked 0 0).st.bufAt 0 0).refcnt = 0 ∧
    ((brelse wLocked 0 0).st.bufAt 0 0).tstamp = wLocked.ticks ∧
    ((brelse wLocked 0 0).st.bufAt 0 0).lockHeld = false ∧
    (brelse wLocked 0 0).st.bufAt 1 1 = wLocked.bufAt 1 1 := by
  have h := brelse_locked_spec wLocked 0 0 (by decide)
  exact ⟨h.1, h.2.1, h.2.2.2.1 (by decide) (by decide), h.2.2.2.2.1,
    h.2.2.2.2.2.1, h.2.2.2.2.2.2.2.2.2.2.1 1 1 (by decide)⟩

/-- C3: when no slot of the target bucket matches and every slot has a
nonzero reference count, `bget` releases the shard lock and panics,
returning no result and leaving the state unchanged. -/
theorem bget_exhaustion_panic (dev blockno : Nat) (s : BCache)
    (hmiss : ∀ k, k < s.nbuf →
      isHit dev blockno (s.bufAt (blockno % s.nbuckets) k) = false)
    (hpin : ∀ k, k < s.nbuf →
      (s.bufAt (blockno % s.nbuckets) k).refcnt ≠ 0) :
    (bget dev blockno s).res = none ∧
    (bget dev blockno s).st = s ∧
    (bget dev blockno s).tr = [Ev.acqShard (blockno % s.nbuckets),
      Ev.relShard (blockno % s.nbuckets), Ev.panicked "bget: no buffers"] := by
  have hnone : bscan dev blockno (scanList s (blockno % s.nbuckets)) none
      = Sum.inr none := by
    apply bscan_none_of_pinned
    · intro p hp
      obtain ⟨h1, h2⟩ := scanList_mem_spec s _ p hp
      rw [h2]
      exact hmiss p.1 h1
    · intro p hp
      obtain ⟨h1, h2⟩ := scanList_mem_spec s _ p hp
      rw [h2]
      exact hpin p.1 h1
  simp [bget, hnone]

/-- A concrete state whose bucket 0 is entirely pinned. -/
def wPinned : BCache :=
  setBuf (setBuf (binit (cZero 2 2)) 0 0
      { zeroBuf with lockInit := true, refcnt := 3 })
    0 1 { zeroBuf with lockInit := true, refcnt := 2 }

/-- Witness for C3: requesting (1,2) hashes to the all-pinned bucket 0. -/
theorem bget_exhaustion_panic_witness :
    (bget 1 2 wPinned).res = none ∧
    (bget 1 2 wPinned).st = wPinned ∧
    (bget 1 2 wPinned).tr = [Ev.acqShard 0, Ev.relShard 0,
      Ev.panicked "bget: no buffers"] := by
  have h := bget_exhaustion_panic 1 2 wPinned (by decide) (by decide)
  exact ⟨h.1, h.2.1, h.2.2⟩

/-- C1: when no slot of the target bucket matches the requested
identity, the slot returned by `bget` (if any) has reference count 0,
carries the smallest timestamp among all zero-reference slots of the
bucket, and is the first slot in scan order attaining that minimum; a
slot with nonzero reference count is never selected. -/
theorem bget_lru_correct (dev blockno : Nat) (s : BCache) (i j : Nat)
    (hmiss : ∀ k, k < s.nbuf →
      isHit dev blockno (s.bufAt (blockno % s.nbuckets) k) = false)
    (hres : (bget dev blockno s).res = some (i, j)) :
    i = blockno % s.nbuckets ∧ j < s.nbuf ∧
    (s.bufAt (blockno % s.nbuckets) j).refcnt = 0 ∧
    (∀ k, k < s.nbuf → (s.bufAt (blockno % s.nbuckets) k).refcnt = 0 →
      (s.bufAt (blockno % s.nbuckets) j).tstamp
        ≤ (s.bufAt (blockno % s.nbuckets) k).tstamp) ∧
    (∀ k, k < j → (s.bufAt (blockno % s.nbuckets) k).refcnt = 0 →
      (s.bufAt (blockno % s.nbuckets) j).tstamp
        < (s.bufAt (blockno % s.nbuckets) k).tstamp) := by
  have hnohit : ∀ p ∈ scanList s (blockno % s.nbuckets),
      isHit dev blockno p.2 = false := by
    intro p hp
    obtain ⟨h1, h2⟩ := scanList_mem_spec s _ p hp
    rw [h2]
    exact hmiss p.1 h1
  obtain ⟨o, ho⟩ := bscan_inr_of_nohit dev blockno _ none hnohit
  cases o with
  | none => simp [bget, ho] at hres
  | some p =>
    obtain ⟨A, B, _, D, _⟩ := bscan_lru_spec dev blockno _ none p.1 p.2
      (scanList_pairwise s _) (by intro q hq; cases hq) ho
    rcases A with ⟨hmem, hr0⟩ | hacc
    · obtain ⟨hjlt, heq⟩ := scanList_mem_spec s _ _ hmem
      have hres' : blockno % s.nbuckets = i ∧ p.1 = j := by
        simpa [bget, ho] using hres
      obtain ⟨hi, hj⟩ := hres'
      subst hi
      subst hj
      refine ⟨rfl, hjlt, by rw [← heq]; exact hr0, ?_, ?_⟩
      · intro k hk hk0
        have := B (k, s.bufAt (blockno % s.nbuckets) k)
          (scanList_get s _ k hk) hk0
        rw [← heq]
        exact this
      · intro k hk hk0
        have hkn : k < s.nbuf := lt_trans hk hjlt
        have := D (k, s.bufAt (blockno % s.nbuckets) k)
          (scanList_get s _ k hkn) hk0 hk
        rw [← heq]
        exact this
    · cases hacc

/-- A concrete single-bucket state with three eviction-eligible slots of
recencies 5, 2, 2: the LRU minimum is attained first at index 1. -/
def wLru : BCache :=
  { nbuckets := 1, nbuf := 3,
    bufAt := fun _ j =>
      { zeroBuf with lockInit := true, tstamp := if j = 0 then 5 else 2 },
    shardInitAt := fun _ => true, ticks := 7 }

/-- Witness for C1 on the concrete recency pattern 5, 2, 2. -/
theorem bget_lru_correct_witness :
    0 = 0 % wLru.nbuckets ∧ 1 < wLru.nbuf ∧
    (wLru.bufAt (0 % wLru.nbuckets) 1).refcnt = 0 ∧
    (∀ k, k < wLru.nbuf → (wLru.bufAt (0 % wLru.nbuckets) k).refcnt = 0 →
      (wLru.bufAt (0 % wLru.nbuckets) 1).tstamp
        ≤ (wLru.bufAt (0 % wLru.nbuckets) k).tstamp) ∧
    (∀ k, k < 1 → (wLru.bufAt (0 % wLru.nbuckets) k).refcnt = 0 →
      (wLru.bufAt (0 % wLru.nbuckets) 1).tstamp
        < (wLru.bufAt (0 % wLru.nbuckets) k).tstamp) :=
  bget_lru_correct 1 0 wLru 0 1 (by decide) (by decide)

/-- C2: when no slot of the target bucket matches but some slot has
reference count 0, `bget` returns a slot of that bucket reassigned to
the requested identity: invalid, `refcnt = 1`, `tstamp` the current
ticks, sleep lock held; the trace releases the shard lock before
acquiring the slot's sleep lock. -/
theorem bget_evict_spec (dev blockno : Nat) (s : BCache)
    (hmiss : ∀ k, k < s.nbuf →
      isHit dev blockno (s.bufAt (blockno % s.nbuckets) k) = false)
    (hfree : ∃ k, k < s.nbuf ∧ (s.bufAt (blockno % s.nbuckets) k).refcnt = 0) :
    ∃ j, j < s.nbuf ∧
      (bget dev blockno s).res = some (blockno % s.nbuckets, j) ∧
      ((bget dev blockno s).st.bufAt (blockno % s.nbuckets) j).dev = dev ∧
      ((bget dev blockno s).st.bufAt (blockno % s.nbuckets) j).blockno = blockno ∧
      ((bget dev blockno s).st.bufAt (blockno % s.nbuckets) j).valid = false ∧
      ((bget dev blockno s).st.bufAt (blockno % s.nbuckets) j).refcnt = 1 ∧
      ((bget dev blockno s).st.bufAt (blockno % s.nbuckets) j).tstamp = s.ticks ∧
      ((bget dev blockno s).st.bufAt (blockno % s.nbuckets) j).lockHeld = true ∧
      (bget dev blockno s).tr = [Ev.acqShard (blockno % s.nbuckets),
        Ev.relShard (blockno % s.nbuckets),
        Ev.acqSleep (blockno % s.nbuckets) j] := by
  have hnohit : ∀ p ∈ scanList s (blockno % s.nbuckets),
      isHit dev blockno p.2 = false := by
    intro p hp
    obtain ⟨h1, h2⟩ := scanList_mem_spec s _ p hp
    rw [h2]
    exact hmiss p.1 h1
  obtain ⟨o, ho⟩ := bscan_inr_of_nohit dev blockno _ none hnohit
  cases o with
  | none =>
    obtain ⟨k, hk, hk0⟩ := hfree
    obtain ⟨_, hall⟩ := bscan_inr_none_spec dev blockno _ none ho
    exact absurd hk0 (hall (k, s.bufAt (blockno % s.nbuckets) k)
      (scanList_get s _ k hk))
  | some p =>
    obtain ⟨A, _, _, _, _⟩ := bscan_lru_spec dev blockno _ none p.1 p.2
      (scanList_pairwise s _) (by intro q hq; cases hq) ho
    rcases A with ⟨hmem, _⟩ | hacc
    · obtain ⟨hjlt, _⟩ := scanList_mem_spec s _ _ hmem
      refine ⟨p.1, hjlt, ?_⟩
      simp [bget, ho, setBuf]
    · cases hacc

/-- Witness for C2 on the freshly initialized cache: (1,5) hashes to
bucket 1, misses, and evicts a free slot. -/
theorem bget_evict_spec_witness :
    ∃ j, j < (binit (cZero 2 2)).nbuf ∧
      (bget 1 5 (binit (cZero 2 2))).res = some (5 % (binit (cZero 2 2)).nbuckets, j) ∧
      ((bget 1 5 (binit (cZero 2 2))).st.bufAt (5 % (binit (cZero 2 2)).nbuckets) j).dev = 1 ∧
      ((bget 1 5 (binit (cZero 2 2))).st.bufAt (5 % (binit (cZero 2 2)).nbuckets) j).blockno = 5 ∧
      ((bget 1 5 (binit (cZero 2 2))).st.bufAt (5 % (binit (cZero 2 2)).nbuckets) j).valid = false ∧
      ((bget 1 5 (binit (cZero 2 2))).st.bufAt (5 % (binit (cZero 2 2)).nbuckets) j).refcnt = 1 ∧
      ((bget 1 5 (binit (cZero 2 2))).st.bufAt (5 % (binit (cZero 2 2)).nbuckets) j).tstamp = (binit (cZero 2 2)).ticks ∧
      ((bget 1 5 (binit (cZero 2 2))).st.bufAt (5 % (binit (cZero 2 2)).nbuckets) j).lockHeld = true ∧
      (bget 1 5 (binit (cZero 2 2))).tr = [Ev.acqShard (5 % (binit (cZero 2 2)).nbuckets),
        Ev.relShard (5 % (binit (cZero 2 2)).nbuckets),
        Ev.acqSleep (5 % (binit (cZero 2 2)).nbuckets) j] :=
  bget_evict_spec 1 5 (binit (cZero 2 2)) (by decide) ⟨0, by decide, by decide⟩

/-- Whatever branch `bget` takes, the returned coordinates (if any) name
a slot of the target bucket that ends up sleep-locked with the requested
identity, and the trace is the shard acquire/release followed by the
sleep-lock acquire. -/
theorem bget_post_spec (dev blockno : Nat) (s : BCache) (i j : Nat)
    (hres : (bget dev blockno s).res = some (i, j)) :
    i = blockno % s.nbuckets ∧ j < s.nbuf ∧
    ((bget dev blockno s).st.bufAt i j).lockHeld = true ∧
    ((bget dev blockno s).st.bufAt i j).dev = dev ∧
    ((bget dev blockno s).st.bufAt i j).blockno = blockno ∧
    (bget dev blockno s).st.nbuckets = s.nbuckets ∧
    (bget dev blockno s).st.nbuf = s.nbuf ∧
    (bget dev blockno s).tr = [Ev.acqShard i, Ev.relShard i, Ev.acqSleep i j] := by
  cases ho : bscan dev blockno (scanList s (blockno % s.nbuckets)) none with
  | inl p =>
    have hres' : blockno % s.nbuckets = i ∧ p.1 = j := by
      simpa [bget, ho] using hres
    obtain ⟨hi, hj⟩ := hres'
    subst hi
    subst hj
    obtain ⟨hmem, hhit⟩ := bscan_inl_spec dev blockno _ none p ho
    obtain ⟨hjlt, heq⟩ := scanList_mem_spec s _ _ hmem
    simp only [isHit, Bool.and_eq_true, beq_iff_eq] at hhit
    refine ⟨rfl, hjlt, ?_⟩
    simp [bget, ho, setBuf, hhit.1, hhit.2]
  | inr o =>
    cases o with
    | none => simp [bget, ho] at hres
    | some p =>
      have hres' : blockno % s.nbuckets = i ∧ p.1 = j := by
        simpa [bget, ho] using hres
      obtain ⟨hi, hj⟩ := hres'
      subst hi
      subst hj
      obtain ⟨A, _, _, _, _⟩ := bscan_lru_spec dev blockno _ none p.1 p.2
        (scanList_pairwise s _) (by intro q hq; cases hq) ho
      rcases A with ⟨hmem, _⟩ | hacc
      · obtain ⟨hjlt, _⟩ := scanList_mem_spec s _ _ hmem
        refine ⟨rfl, hjlt, ?_⟩
        simp [bget, ho, setBuf]
      · cases hacc

/-- Result projection: `bread` returns exactly what `bget` returns. -/
theorem bread_res_eq (dev blockno : Nat) (disk : Nat → Nat → Nat) (s : BCache) :
    (bread dev blockno disk s).res = (bget dev blockno s).res := by
  simp only [bread]
  cases h : (bget dev blockno s).res with
  | none => exact h
  | some r =>
    cases r with
    | mk a b =>
      simp only
      split
      · exact h
      · rfl

/-- C4: a returning `bread` yields a slot that is valid and exclusively
locked; the disk driver is invoked exactly when the slot produced by the
engine was invalid. -/
theorem bread_valid_spec (dev blockno : Nat) (disk : Nat → Nat → Nat)
    (s : BCache) (i j : Nat)
    (hres : (bread dev blockno disk s).res = some (i, j)) :
    ((bread dev blockno disk s).st.bufAt i j).valid = true ∧
    ((bread dev blockno disk s).st.bufAt i j).lockHeld = true ∧
    ((Ev.diskRW false dev blockno ∈ (bread dev blockno disk s).tr) ↔
      ((bget dev blockno s).st.bufAt i j).valid = false) := by
  have hb : (bget dev blockno s).res = some (i, j) :=
    (bread_res_eq dev blockno disk s) ▸ hres
  obtain ⟨_, _, hlock, _, _, _, _, htr⟩ := bget_post_spec dev blockno s i j hb
  cases hv : ((bget dev blockno s).st.bufAt i j).valid with
  | true =>
    have hbr : bread dev blockno disk s = bget dev blockno s := by
      simp only [bread]
      rw [hb]
      simp [hv]
    rw [hbr]
    refine ⟨hv, hlock, ?_⟩
    rw [htr]
    simp [hv]
  | false =>
    have hbr : bread dev blockno disk s =
        { res := (bget dev blockno s).res,
          st := setBuf (bget dev blockno s).st i j
            { (bget dev blockno s).st.bufAt i j with
                valid := true, data := disk dev blockno },
          tr := (bget dev blockno s).tr ++ [Ev.diskRW false dev blockno] } := by
      simp only [bread]
      rw [hb]
      simp [hv]
    rw [hbr]
    refine ⟨by simp [setBuf], ?_, ?_⟩
    · simp only [setBuf]
      simp [hlock]
    · simp [hv]

/-- Witness for C4: block (1,5) on the fresh cache is invalid, so the
driver fills it and `valid` is set. -/
theorem bread_valid_spec_witness :
    ((bread 1 5 (fun _ _ => 42) (binit (cZero 2 2))).st.bufAt 1 0).valid = true ∧
    ((bread 1 5 (fun _ _ => 42) (binit (cZero 2 2))).st.bufAt 1 0).lockHeld = true ∧
    ((Ev.diskRW false 1 5 ∈ (bread 1 5 (fun _ _ => 42) (binit (cZero 2 2))).tr) ↔
      ((bget 1 5 (binit (cZero 2 2))).st.bufAt 1 0).valid = false) :=
  bread_valid_spec 1 5 (fun _ _ => 42) (binit (cZero 2 2)) 1 0 (by decide)

/-- C10: `bunpin` (and the decrement inside `brelse`) decrements the
unsigned reference count without any zero check, so a slot with
`refcnt = 0` wraps to `2^32 - 1` and is no longer eviction-eligible:
`bget` can never again return that slot except as a cache hit. -/
theorem bunpin_underflow_wrap (s : BCache) (i j : Nat)
    (h : (s.bufAt i j).refcnt = 0) :
    (bunpin s i j).res = some () ∧
    ((bunpin s i j).st.bufAt i j).refcnt = 2 ^ 32 - 1 ∧
    ((s.bufAt i j).lockHeld = true →
      ((brelse s i j).st.bufAt i j).refcnt = 2 ^ 32 - 1) ∧
    (∀ dev blockno,
      isHit dev blockno ((bunpin s i j).st.bufAt i j) = false →
      (bget dev blockno ((bunpin s i j).st)).res ≠ some (i, j)) := by
  have hrc : ((bunpin s i j).st.bufAt i j).refcnt = 2 ^ 32 - 1 := by
    simp [bunpin, setBuf, h, UINT]
  refine ⟨rfl, hrc, ?_, ?_⟩
  · intro hl
    simp [brelse, setBuf, h, hl, UINT]
  · intro dev blockno hnothit hcontra
    cases ho : bscan dev blockno
        (scanList ((bunpin s i j).st) (blockno % ((bunpin s i j).st).nbuckets))
        none with
    | inl p =>
      have hres' : blockno % ((bunpin s i j).st).nbuckets = i ∧ p.1 = j := by
        simpa [bget, ho] using hcontra
      obtain ⟨hi, hj⟩ := hres'
      obtain ⟨hmem, hhit⟩ := bscan_inl_spec dev blockno _ none p ho
      obtain ⟨_, heq⟩ := scanList_mem_spec _ _ _ hmem
      rw [hi, hj] at heq
      rw [heq] at hhit
      rw [hnothit] at hhit
      cases hhit
    | inr o =>
      cases o with
      | none => simp [bget, ho] at hcontra
      | some p =>
        have hres' : blockno % ((bunpin s i j).st).nbuckets = i ∧ p.1 = j := by
          simpa [bget, ho] using hcontra
        obtain ⟨hi, hj⟩ := hres'
        obtain ⟨A, _, _, _, _⟩ := bscan_lru_spec dev blockno _ none p.1 p.2
          (scanList_pairwise _ _) (by intro q hq; cases hq) ho
        rcases A with ⟨hmem, hr0⟩ | hacc
        · obtain ⟨_, heq⟩ := scanList_mem_spec _ _ _ hmem
          rw [hi, hj] at heq
          rw [heq] at hr0
          rw [hrc] at hr0
          exact absurd hr0 (by decide)
        · cases hacc

/-- Witness for C10 on a locked zero-reference slot. -/
theorem bunpin_underflow_wrap_witness :
    (bunpin wLru 0 2).res = some () ∧
    ((bunpin wLru 0 2).st.bufAt 0 2).refcnt = 2 ^ 32 - 1 ∧
    (bget 9 0 ((bunpin wLru 0 2).st)).res ≠ some (0, 2) := by
  have h := bunpin_underflow_wrap wLru 0 2 (by decide)
  exact ⟨h.1, h.2.1, h.2.2.2 9 0 (by decide)⟩

/-! ### Identity-field frame analysis of the operations -/

/-- Lookup `bget` either leaves every slot's identity unchanged (hit or panic)
or reassigns exactly one in-range slot of the target bucket — which
matched nothing — to the requested identity (eviction). -/
theorem bget_ident_cases (dev blockno : Nat) (s : BCache) :
    (bget dev blockno s).st.nbuckets = s.nbuckets ∧
    (bget dev blockno s).st.nbuf = s.nbuf ∧
    ( (∀ i j, ((bget dev blockno s).st.bufAt i j).dev = (s.bufAt i j).dev ∧
        ((bget dev blockno s).st.bufAt i j).blockno = (s.bufAt i j).blockno)
    ∨ (∃ j0, j0 < s.nbuf ∧
        ((bget dev blockno s).st.bufAt (blockno % s.nbuckets) j0).dev = dev ∧
        ((bget dev blockno s).st.bufAt (blockno % s.nbuckets) j0).blockno
          = blockno ∧
        (∀ k, k < s.nbuf →
          isHit dev blockno (s.bufAt (blockno % s.nbuckets) k) = false) ∧
        (∀ i j, ¬(i = blockno % s.nbuckets ∧ j = j0) →
          ((bget dev blockno s).st.bufAt i j).dev = (s.bufAt i j).dev ∧
          ((bget dev blockno s).st.bufAt i j).blockno
            = (s.bufAt i j).blockno)) ) := by
  cases ho : bscan dev blockno (scanList s (blockno % s.nbuckets)) none with
  | inl p =>
    obtain ⟨hmem, _⟩ := bscan_inl_spec dev blockno _ none p ho
    obtain ⟨hjlt, heq⟩ := scanList_mem_spec s _ _ hmem
    refine ⟨by simp [bget, ho, setBuf], by simp [bget, ho, setBuf], Or.inl ?_⟩
    intro i j
    by_cases hc : i = blockno % s.nbuckets ∧ j = p.1
    · obtain ⟨h1, h2⟩ := hc
      subst h1
      subst h2
      constructor
      · simp only [bget, ho, setBuf]
        simp [← heq]
      · simp only [bget, ho, setBuf]
        simp [← heq]
    · constructor <;> simp [bget, ho, setBuf, hc]
  | inr o =>
    cases o with
    | none =>
      exact ⟨by simp [bget, ho], by simp [bget, ho],
        Or.inl fun i j => by simp [bget, ho]⟩
    | some p =>
      obtain ⟨A, _, _, _, _⟩ := bscan_lru_spec dev blockno _ none p.1 p.2
        (scanList_pairwise s _) (by intro q hq; cases hq) ho
      rcases A with ⟨hmem, _⟩ | hacc
      · obtain ⟨hjlt, _⟩ := scanList_mem_spec s _ _ hmem
        refine ⟨by simp [bget, ho, setBuf], by simp [bget, ho, setBuf],
          Or.inr ⟨p.1, hjlt, ?_, ?_, ?_, ?_⟩⟩
        · simp [bget, ho, setBuf]
        · simp [bget, ho, setBuf]
        · intro k hk
          exact bscan_inr_nohit dev blockno _ none _ ho
            (k, s.bufAt (blockno % s.nbuckets) k) (scanList_get s _ k hk)
        · intro i j hc
          constructor <;> simp [bget, ho, setBuf, hc]
      · cases hacc

/-- Reading changes no identity field beyond what its inner `bget`
does. -/
theorem bread_ident (dev blockno : Nat) (disk : Nat → Nat → Nat)
    (s : BCache) (i' j' : Nat) :
    (bread dev blockno disk s).st.nbuckets = (bget dev blockno s).st.nbuckets ∧
    (bread dev blockno disk s).st.nbuf = (bget dev blockno s).st.nbuf ∧
    ((bread dev blockno disk s).st.bufAt i' j').dev
      = ((bget dev blockno s).st.bufAt i' j').dev ∧
    ((bread dev blockno disk s).st.bufAt i' j').blockno
      = ((bget dev blockno s).st.bufAt i' j').blockno := by
  simp only [bread]
  cases h : (bget dev blockno s).res with
  | none => exact ⟨rfl, rfl, rfl, rfl⟩
  | some r =>
    cases r with
    | mk a b =>
      simp only
      split
      · exact ⟨rfl, rfl, rfl, rfl⟩
      · by_cases hc : i' = a ∧ j' = b
        · obtain ⟨h1, h2⟩ := hc
          subst h1
          subst h2
          exact ⟨rfl, rfl, by simp [setBuf], by simp [setBuf]⟩
        · exact ⟨rfl, rfl, by simp [setBuf, hc], by simp [setBuf, hc]⟩

/-- Release, pin and unpin never change identity fields or the
configuration. -/
theorem rpu_ident (s : BCache) (i j i' j' : Nat) :
    (brelse s i j).st.nbuckets = s.nbuckets ∧
    (brelse s i j).st.nbuf = s.nbuf ∧
    ((brelse s i j).st.bufAt i' j').dev = (s.bufAt i' j').dev ∧
    ((brelse s i j).st.bufAt i' j').blockno = (s.bufAt i' j').blockno ∧
    (bpin s i j).st.nbuckets = s.nbuckets ∧
    (bpin s i j).st.nbuf = s.nbuf ∧
    ((bpin s i j).st.bufAt i' j').dev = (s.bufAt i' j').dev ∧
    ((bpin s i j).st.bufAt i' j').blockno = (s.bufAt i' j').blockno ∧
    (bunpin s i j).st.nbuckets = s.nbuckets ∧
    (bunpin s i j).st.nbuf = s.nbuf ∧
    ((bunpin s i j).st.bufAt i' j').dev = (s.bufAt i' j').dev ∧
    ((bunpin s i j).st.bufAt i' j').blockno = (s.bufAt i' j').blockno := by
  by_cases hl : (s.bufAt i j).lockHeld = true
  · by_cases hc : i' = i ∧ j' = j
    · obtain ⟨h1, h2⟩ := hc
      subst h1
      subst h2
      refine ⟨?_, ?_, ?_, ?_, ?_, ?_, ?_, ?_, ?_, ?_, ?_, ?_⟩
      all_goals simp [brelse, bpin, bunpin, setBuf, hl]
    · refine ⟨?_, ?_, ?_, ?_, ?_, ?_, ?_, ?_, ?_, ?_, ?_, ?_⟩
      all_goals simp [brelse, bpin, bunpin, setBuf, hl, hc]
  · by_cases hc : i' = i ∧ j' = j
    · obtain ⟨h1, h2⟩ := hc
      subst h1
      subst h2
      refine ⟨?_, ?_, ?_, ?_, ?_, ?_, ?_, ?_, ?_, ?_, ?_, ?_⟩
      all_goals simp [brelse, bpin, bunpin, setBuf, hl]
    · refine ⟨?_, ?_, ?_, ?_, ?_, ?_, ?_, ?_, ?_, ?_, ?_, ?_⟩
      all_goals simp [brelse, bpin, bunpin, setBuf, hl, hc]

/-- One transition either leaves every slot's identity unchanged, or
reassigns exactly one in-range slot — residing in the bucket the new
`blockno` hashes to, in which nothing matched the new identity — and
leaves all other identities unchanged.  The configuration constants
never change. -/
theorem step_ident_cases (s s' : BCache) (hstep : Step s s') :
    s'.nbuckets = s.nbuckets ∧ s'.nbuf = s.nbuf ∧
    ( (∀ i j, (s'.bufAt i j).dev = (s.bufAt i j).dev ∧
        (s'.bufAt i j).blockno = (s.bufAt i j).blockno)
    ∨ (∃ dev blockno j0, j0 < s.nbuf ∧
        (s'.bufAt (blockno % s.nbuckets) j0).dev = dev ∧
        (s'.bufAt (blockno % s.nbuckets) j0).blockno = blockno ∧
        (∀ k, k < s.nbuf →
          isHit dev blockno (s.bufAt (blockno % s.nbuckets) k) = false) ∧
        (∀ i j, ¬(i = blockno % s.nbuckets ∧ j = j0) →
          (s'.bufAt i j).dev = (s.bufAt i j).dev ∧
          (s'.bufAt i j).blockno = (s.bufAt i j).blockno)) ) := by
  cases hstep with
  | tick s => exact ⟨rfl, rfl, Or.inl fun i j => ⟨rfl, rfl⟩⟩
  | get dev blockno s hs =>
    obtain ⟨h1, h2, hcase⟩ := bget_ident_cases dev blockno s
    refine ⟨h1, h2, ?_⟩
    rcases hcase with hl | ⟨j0, hj0, hdev, hbn, hnohit, hframe⟩
    · exact Or.inl hl
    · exact Or.inr ⟨dev, blockno, j0, hj0, hdev, hbn, hnohit, hframe⟩
  | read dev blockno disk s hs =>
    obtain ⟨h1, h2, hcase⟩ := bget_ident_cases dev blockno s
    have hr := fun i' j' => bread_ident dev blockno disk s i' j'
    refine ⟨(hr 0 0).1.trans h1, (hr 0 0).2.1.trans h2, ?_⟩
    rcases hcase with hl | ⟨j0, hj0, hdev, hbn, hnohit, hframe⟩
    · refine Or.inl fun i j => ?_
      exact ⟨(hr i j).2.2.1.trans (hl i j).1, (hr i j).2.2.2.trans (hl i j).2⟩
    · refine Or.inr ⟨dev, blockno, j0, hj0,
        (hr _ j0).2.2.1.trans hdev, (hr _ j0).2.2.2.trans hbn, hnohit, ?_⟩
      intro i j hc
      exact ⟨(hr i j).2.2.1.trans (hframe i j hc).1,
        (hr i j).2.2.2.trans (hframe i j hc).2⟩
  | relse i j s hs =>
    refine ⟨(rpu_ident s i j 0 0).1, (rpu_ident s i j 0 0).2.1, Or.inl fun i' j' => ?_⟩
    exact ⟨(rpu_ident s i j i' j').2.2.1, (rpu_ident s i j i' j').2.2.2.1⟩
  | pin i j s =>
    refine ⟨(rpu_ident s i j 0 0).2.2.2.2.1, (rpu_ident s i j 0 0).2.2.2.2.2.1,
      Or.inl fun i' j' => ?_⟩
    exact ⟨(rpu_ident s i j i' j').2.2.2.2.2.2.1,
      (rpu_ident s i j i' j').2.2.2.2.2.2.2.1⟩
  | unpin i j s =>
    refine ⟨(rpu_ident s i j 0 0).2.2.2.2.2.2.2.2.1,
      (rpu_ident s i j 0 0).2.2.2.2.2.2.2.2.2.1, Or.inl fun i' j' => ?_⟩
    exact ⟨(rpu_ident s i j i' j').2.2.2.2.2.2.2.2.2.2.1,
      (rpu_ident s i j i' j').2.2.2.2.2.2.2.2.2.2.2⟩

/-- Bucket-residence invariant: every in-range slot either lies in the
bucket its `blockno` hashes to, or still carries the zero-initialized
identity (0,0). -/
def InvA (s : BCache) : Prop :=
  ∀ i j, i < s.nbuckets → j < s.nbuf →
    ((s.bufAt i j).blockno % s.nbuckets = i ∨
     ((s.bufAt i j).dev = 0 ∧ (s.bufAt i j).blockno = 0))

/-- Identity-uniqueness invariant: two distinct in-range slots of the
same bucket share their identity only if it is the zero-initialized
identity (0,0). -/
def InvB (s : BCache) : Prop :=
  ∀ i j k, i < s.nbuckets → j < s.nbuf → k < s.nbuf → j ≠ k →
    (s.bufAt i j).dev = (s.bufAt i k).dev →
    (s.bufAt i j).blockno = (s.bufAt i k).blockno →
    ((s.bufAt i j).dev = 0 ∧ (s.bufAt i j).blockno = 0)

/-- Both invariants are preserved by every transition. -/
theorem step_preserves_inv (s s' : BCache) (hstep : Step s s')
    (hA : InvA s) (hB : InvB s) : InvA s' ∧ InvB s' := by
  obtain ⟨hn, hm, hcase⟩ := step_ident_cases s s' hstep
  rcases hcase with hl | ⟨dev, blockno, j0, hj0, hdev, hbn, hnohit, hframe⟩
  · constructor
    · intro i j hi hj
      rw [hn, (hl i j).1, (hl i j).2]
      exact hA i j (hn ▸ hi) (hm ▸ hj)
    · intro i j k hi hj hk hne hd hb
      rw [(hl i j).1, (hl i j).2]
      rw [(hl i j).1, (hl i k).1] at hd
      rw [(hl i j).2, (hl i k).2] at hb
      exact hB i j k (hn ▸ hi) (hm ▸ hj) (hm ▸ hk) hne hd hb
  · constructor
    · intro i j hi hj
      by_cases hc : i = blockno % s.nbuckets ∧ j = j0
      · obtain ⟨h1, h2⟩ := hc
        subst h1
        subst h2
        rw [hn, hbn]
        exact Or.inl rfl
      · rw [hn, (hframe i j hc).1, (hframe i j hc).2]
        exact hA i j (hn ▸ hi) (hm ▸ hj)
    · intro i j k hi hj hk hne hd hb
      by_cases hcj : i = blockno % s.nbuckets ∧ j = j0
      · obtain ⟨h1, h2⟩ := hcj
        subst h1
        subst h2
        have hck : ¬(blockno % s.nbuckets = blockno % s.nbuckets ∧ k = j) := by
          intro hk2
          exact hne hk2.2.symm
        have hdk : (s.bufAt (blockno % s.nbuckets) k).dev = dev := by
          rw [← (hframe _ k hck).1, ← hd, hdev]
        have hbk : (s.bufAt (blockno % s.nbuckets) k).blockno = blockno := by
          rw [← (hframe _ k hck).2, ← hb, hbn]
        have := hnohit k (hm ▸ hk)
        rw [isHit, hdk, hbk] at this
        simp at this
      · by_cases hck : i = blockno % s.nbuckets ∧ k = j0
        · obtain ⟨h1, h2⟩ := hck
          subst h1
          subst h2
          have hdj : (s.bufAt (blockno % s.nbuckets) j).dev = dev := by
            rw [← (hframe _ j hcj).1, hd, hdev]
          have hbj : (s.bufAt (blockno % s.nbuckets) j).blockno = blockno := by
            rw [← (hframe _ j hcj).2, hb, hbn]
          have := hnohit j (hm ▸ hj)
          rw [isHit, hdj, hbj] at this
          simp at this
        · rw [(hframe i j hcj).1, (hframe i j hcj).2]
          rw [(hframe i j hcj).1, (hframe i k hck).1] at hd
          rw [(hframe i j hcj).2, (hframe i k hck).2] at hb
          exact hB i j k (hn ▸ hi) (hm ▸ hj) (hm ▸ hk) hne hd hb

/-- The freshly initialized cache satisfies both invariants. -/
theorem init_inv (nbuckets nbuf : Nat) :
    InvA (binit (cZero nbuckets nbuf)) ∧ InvB (binit (cZero nbuckets nbuf)) := by
  constructor
  · intro i j hi hj
    right
    simp only [binit, cZero]
    constructor <;> (split <;> simp [zeroBuf])
  · intro i j k hi hj hk hne hd hb
    simp only [binit, cZero]
    constructor <;> (split <;> simp [zeroBuf])

/-- Reachable states keep the configuration constants and satisfy both
invariants. -/
theorem reachable_inv (nbuckets nbuf : Nat) (s : BCache)
    (h : Reachable nbuckets nbuf s) :
    s.nbuckets = nbuckets ∧ s.nbuf = nbuf ∧ InvA s ∧ InvB s := by
  induction h with
  | refl =>
    exact ⟨rfl, rfl, (init_inv nbuckets nbuf).1, (init_inv nbuckets nbuf).2⟩
  | tail hab hbc ih =>
    obtain ⟨h1, h2, hA, hB⟩ := ih
    obtain ⟨hn, hm, _⟩ := step_ident_cases _ _ hbc
    obtain ⟨hA', hB'⟩ := step_preserves_inv _ _ hbc hA hB
    exact ⟨hn.trans h1, hm.trans h2, hA', hB'⟩

/-- A slot of `s` carries identity (dev, blockno) when it is in range
and its identity fields match. -/
def carries (s : BCache) (i j dev blockno : Nat) : Bool :=
  decide (i < s.nbuckets) && decide (j < s.nbuf) &&
  ((s.bufAt i j).dev == dev) && ((s.bufAt i j).blockno == blockno)

/-- Counterexample to C5 as stated: at the (reachable) freshly
initialized state, the two distinct slots (0,0) and (0,1) of bucket 0
both carry the identity (0,0) — the initial field values of
never-assigned slots, which the claim explicitly includes. -/
theorem ident_not_unique_counterexample :
    Reachable 2 2 (binit (cZero 2 2)) ∧
    carries (binit (cZero 2 2)) 0 0 0 0 = true ∧
    carries (binit (cZero 2 2)) 0 1 0 0 = true :=
  ⟨Relation.ReflTransGen.refl, by decide, by decide⟩

/-- C5 (amended): at every reachable state, at most one slot of the
cache carries a given identity, for every identity other than the
zero-initialized (0,0) shared by never-assigned slots. -/
theorem ident_unique_amended (nbuckets nbuf : Nat) (s : BCache)
    (h : Reachable nbuckets nbuf s) (dev blockno : Nat)
    (hnz : ¬(dev = 0 ∧ blockno = 0)) (i j i' j' : Nat)
    (h1 : carries s i j dev blockno = true)
    (h2 : carries s i' j' dev blockno = true) :
    i = i' ∧ j = j' := by
  obtain ⟨_, _, hA, hB⟩ := reachable_inv nbuckets nbuf s h
  simp only [carries, Bool.and_eq_true, beq_iff_eq, decide_eq_true_eq] at h1 h2
  obtain ⟨⟨⟨hi1, hj1⟩, hd1⟩, hb1⟩ := h1
  obtain ⟨⟨⟨hi2, hj2⟩, hd2⟩, hb2⟩ := h2
  have hbuck1 : i = blockno % s.nbuckets := by
    rcases hA i j hi1 hj1 with hx | ⟨hz1, hz2⟩
    · rw [hb1] at hx
      exact hx.symm
    · exact absurd ⟨hd1 ▸ hz1, hb1 ▸ hz2⟩ hnz
  have hbuck2 : i' = blockno % s.nbuckets := by
    rcases hA i' j' hi2 hj2 with hx | ⟨hz1, hz2⟩
    · rw [hb2] at hx
      exact hx.symm
    · exact absurd ⟨hd2 ▸ hz1, hb2 ▸ hz2⟩ hnz
  have hii : i = i' := hbuck1.trans hbuck2.symm
  subst hii
  refine ⟨rfl, ?_⟩
  by_contra hne
  have := hB i j j' hi1 hj1 hj2 hne (hd1.trans hd2.symm) (hb1.trans hb2.symm)
  exact hnz ⟨hd1 ▸ this.1, hb1 ▸ this.2⟩

/-- Witness for the amended C5: after one eviction of (1,5), the carrier
of (1,5) is unique, so comparing it with itself yields equal
coordinates. -/
theorem ident_unique_amended_witness : (1 : Nat) = 1 ∧ (0 : Nat) = 0 := by
  have hreach : Reachable 2 2 ((bget 1 5 (binit (cZero 2 2))).st) :=
    Relation.ReflTransGen.tail Relation.ReflTransGen.refl
      (Step.get 1 5 (binit (cZero 2 2)) (by decide))
  exact ident_unique_amended 2 2 _ hreach 1 5 (by decide) 1 0 1 0
    (by decide) (by decide)

/-- The first event of `bget` is always the acquisition of the shard
lock of bucket `blockno % NBUCKETS`. -/
theorem bget_tr_head (dev blockno : Nat) (s : BCache) :
    (bget dev blockno s).tr.head? = some (Ev.acqShard (blockno % s.nbuckets)) := by
  cases ho : bscan dev blockno (scanList s (blockno % s.nbuckets)) none with
  | inl p => simp [bget, ho]
  | inr o => cases o <;> simp [bget, ho]

/-- Hash-residence of a single slot is preserved by every transition. -/
theorem step_preserves_hash (s s' : BCache) (hstep : Step s s') (i j : Nat)
    (h : (s.bufAt i j).blockno % s.nbuckets = i) :
    (s'.bufAt i j).blockno % s'.nbuckets = i := by
  obtain ⟨hn, hm, hcase⟩ := step_ident_cases s s' hstep
  rw [hn]
  rcases hcase with hl | ⟨dev, blockno, j0, hj0, hdev, hbn, hnohit, hframe⟩
  · rw [(hl i j).2]
    exact h
  · by_cases hc : i = blockno % s.nbuckets ∧ j = j0
    · obtain ⟨h1, h2⟩ := hc
      subst h1
      subst h2
      rw [hbn]
    · rw [(hframe i j hc).2]
      exact h

/-- C9: the bucket index is computed from `blockno` alone (the device
argument is ignored); a slot returned by `bget` resides in the bucket
its (current) `blockno` hashes to, and that residence is preserved by
every later transition; consequently `brelse`, `bpin` and `bunpin`,
which recompute the bucket from the slot's current `blockno`, lock
exactly the bucket containing the slot. -/
theorem bucket_hash_consistency (s : BCache) (dev dev' blockno i j : Nat) :
    ((bget dev blockno s).tr.head? = some (Ev.acqShard (blockno % s.nbuckets))) ∧
    ((bget dev' blockno s).tr.head? = (bget dev blockno s).tr.head?) ∧
    (∀ i0 j0, (bget dev blockno s).res = some (i0, j0) →
      i0 = blockno % s.nbuckets ∧
      ((bget dev blockno s).st.bufAt i0 j0).blockno
        % (bget dev blockno s).st.nbuckets = i0) ∧
    (∀ s', Step s s' → (s.bufAt i j).blockno % s.nbuckets = i →
      (s'.bufAt i j).blockno % s'.nbuckets = i) ∧
    ((s.bufAt i j).blockno % s.nbuckets = i →
      ((s.bufAt i j).lockHeld = true →
        (brelse s i j).tr = [Ev.relSleep i j, Ev.acqShard i, Ev.relShard i]) ∧
      (bpin s i j).tr = [Ev.acqShard i, Ev.relShard i] ∧
      (bunpin s i j).tr = [Ev.acqShard i, Ev.relShard i]) := by
  refine ⟨bget_tr_head dev blockno s,
    (bget_tr_head dev' blockno s).trans (bget_tr_head dev blockno s).symm,
    ?_, ?_, ?_⟩
  · intro i0 j0 hres
    obtain ⟨hi0, _, _, _, hbn, hnb, _, _⟩ := bget_post_spec dev blockno s i0 j0 hres
    refine ⟨hi0, ?_⟩
    rw [hbn, hnb]
    exact hi0.symm
  · intro s' hstep hh
    exact step_preserves_hash s s' hstep i j hh
  · intro hh
    refine ⟨?_, ?_, ?_⟩
    · intro hl
      simp [brelse, hl, hh]
    · simp [bpin, hh]
    · simp [bunpin, hh]

/-- Witness for C9 on a concrete state: slot (0,0) of `wLocked` is
locked and hash-resident; requesting (1,4) and (3,4) both lock
bucket 0; the eviction lands in bucket 0; residence survives a tick. -/
theorem bucket_hash_consistency_witness :
    ((bget 1 4 wLocked).tr.head? = some (Ev.acqShard (4 % wLocked.nbuckets))) ∧
    ((bget 3 4 wLocked).tr.head? = (bget 1 4 wLocked).tr.head?) ∧
    (0 = 4 % wLocked.nbuckets ∧
      ((bget 1 4 wLocked).st.bufAt 0 1).blockno
        % (bget 1 4 wLocked).st.nbuckets = 0) ∧
    (({ wLocked with ticks := (wLocked.ticks + 1) % UINT }).bufAt 0 0).blockno
      % ({ wLocked with ticks := (wLocked.ticks + 1) % UINT }).nbuckets = 0 ∧
    (brelse wLocked 0 0).tr = [Ev.relSleep 0 0, Ev.acqShard 0, Ev.relShard 0] ∧
    (bpin wLocked 0 0).tr = [Ev.acqShard 0, Ev.relShard 0] ∧
    (bunpin wLocked 0 0).tr = [Ev.acqShard 0, Ev.relShard 0] := by
  have h := bucket_hash_consistency wLocked 1 3 4 0 0
  refine ⟨h.1, h.2.1, h.2.2.1 0 1 (by decide), ?_, ?_, ?_, ?_⟩
  · exact h.2.2.2.1 _ (Step.tick wLocked) (by decide)
  · exact (h.2.2.2.2 (by decide)).1 (by decide)
  · exact (h.2.2.2.2 (by decide)).2.1
  · exact (h.2.2.2.2 (by decide)).2.2
